import Mathlib

/-!
Verification of the release-packaging pipeline in `src/nimp/commands/package.py`.

The Python code is shallowly embedded: file contents are `String`s, directory
contents are lists of file names, external processes are abstracted by their
exit codes, and every fallible operation returns `Except` or `Option`.
Regular-expression operations of the source are embedded as the equivalent
character-list scans, and Python's `str.split`, `str.lower` and `str.format`
builtins are embedded as executable character-list functions.
-/

namespace Nimp

/-- Failure taxonomy of the pipeline (spec section 7): `keyNotFound` embeds the
`KeyError` of `get_ini_value`, `fileNotFound` the `IOError` raised by `open`,
`processFailure` the `RuntimeError` raised when an external tool returns a
non-zero exit status, `bulkCopyFailure` an aggregate file-set copy failure and
`ioFailure` any other file-system error. -/
inductive PkgError where
  | keyNotFound
  | fileNotFound
  | processFailure
  | bulkCopyFailure
  | ioFailure
deriving DecidableEq

/-- Splits a character list at every newline, keeping empty lines.  This is the
line decomposition induced by `re.MULTILINE` in `get_ini_value`: `^` matches at
the start of the text and after each newline, `$` before each newline and at
the end. -/
def splitLinesAux : List Char → List Char → List (List Char)
  | acc, [] => [acc.reverse]
  | acc, '\n' :: rest => acc.reverse :: splitLinesAux [] rest
  | acc, c :: rest => splitLinesAux (c :: acc) rest

/-- The lines of an ini file, in order. -/
def iniLines (s : String) : List String :=
  (splitLinesAux [] s.data).map String.mk

/-- Character-level string prefix test (case-sensitive, like Python's
`str.startswith` and the anchored regex match below). -/
def strStartsWith (pre s : String) : Bool := pre.data.isPrefixOf s.data

/-- Scan of `re.search('^' + key + '=(?P<value>.*?)$', content, re.MULTILINE)`
from `get_ini_value` (package.py line 40), for keys without regex
metacharacters: the first line starting with `key=` matches, case-sensitively,
and the group `value` is the rest of that line. -/
def findIniValue (key : String) : List String → Except PkgError String
  | [] => Except.error PkgError.keyNotFound
  | line :: rest =>
    if strStartsWith (key ++ "=") line then
      Except.ok (String.mk (line.data.drop (key.length + 1)))
    else findIniValue key rest

/-- `get_ini_value` (package.py lines 35-43).  The file content is `none` when
the file cannot be read (`open` raises, embedded as `fileNotFound`); otherwise
the content is searched line by line and a missing key raises `KeyError`
(embedded as `keyNotFound`). -/
def get_ini_value (fileContent : Option String) (key : String) : Except PkgError String :=
  match fileContent with
  | none => Except.error PkgError.fileNotFound
  | some content => findIniValue key (iniLines content)

/-! ## Pipeline orchestrator (`Package.run`, package.py lines 72-88) -/

/-- The four pipeline steps, in the fixed order hard-coded in `Package.run`. -/
def pipelineStepNames : List String := ["initialize", "cook", "stage", "package"]

/-- One guarded step sequence of `Package.run`: each step in `order` is entered
exactly when its name is in the selected steps (`'x' in env.steps`); an entered
step either succeeds (`stepOk`) or raises, aborting the rest.  Returns the list
of steps entered, in order, and whether the run completed without raising. -/
def runPipeline (selected : List String) (stepOk : String → Bool) : List String → List String × Bool
  | [] => ([], true)
  | s :: rest =>
    if selected.contains s then
      if stepOk s then
        let r := runPipeline selected stepOk rest
        (s :: r.1, r.2)
      else ([s], false)
    else runPipeline selected stepOk rest

/-- `Package.run`: the four steps guarded by membership in the selected set. -/
def packageRun (selected : List String) (stepOk : String → Bool) : List String × Bool :=
  runPipeline selected stepOk pipelineStepNames

/-- Spec-side description (spec sections 4.5 and 7): on an already-filtered
step list, execute steps in order and stop at the first failing one. -/
def selectedStepsTrace (stepOk : String → Bool) : List String → List String × Bool
  | [] => ([], true)
  | s :: rest =>
    if stepOk s then
      let r := selectedStepsTrace stepOk rest
      (s :: r.1, r.2)
    else ([s], false)

/-- `Package._initialize` (package.py lines 91-102) as a success predicate:
when a target override is set, a failed bulk configuration copy raises before
the pre-ship hook runs; otherwise only the hook decides the outcome. -/
def initStepSucceeds (hasTarget copyOk hookOk : Bool) : Bool :=
  if hasTarget then copyOk && hookOk else hookOk

lemma selectedStepsTrace_subset (stepOk : String → Bool) :
    ∀ l : List String, ∀ s, s ∈ (selectedStepsTrace stepOk l).1 → s ∈ l := by
  intro l
  induction l with
  | nil => intro s hs; simp [selectedStepsTrace] at hs
  | cons x rest ih =>
    intro s hs
    by_cases hx : stepOk x
    · simp only [selectedStepsTrace, hx, if_pos] at hs
      rw [List.mem_cons] at hs
      rcases hs with h | h
      · exact h ▸ List.mem_cons_self x rest
      · exact List.mem_cons_of_mem x (ih s h)
    · simp only [selectedStepsTrace, hx] at hs
      simp at hs
      exact hs ▸ List.mem_cons_self x rest

lemma runPipeline_eq_trace (selected : List String) (stepOk : String → Bool) :
    ∀ order : List String,
      runPipeline selected stepOk order
        = selectedStepsTrace stepOk (order.filter (fun s => selected.contains s)) := by
  intro order
  induction order with
  | nil => rfl
  | cons s rest ih =>
    by_cases hsel : selected.contains s
    · rw [List.filter_cons_of_pos hsel]
      by_cases hok : stepOk s
      · simp only [runPipeline, hsel, if_pos, hok, selectedStepsTrace, ih]
      · simp only [runPipeline, hsel, if_pos, hok, selectedStepsTrace, if_neg, Bool.false_eq_true,
          if_false]
    · rw [List.filter_cons_of_neg (by simpa using hsel)]
      simp only [runPipeline, hsel, Bool.false_eq_true, if_false, ih]

lemma selectedStepsTrace_isPrefix (stepOk : String → Bool) :
    ∀ l : List String, (selectedStepsTrace stepOk l).1 <+: l := by
  intro l
  induction l with
  | nil => exact List.nil_prefix
  | cons s rest ih =>
    by_cases hok : stepOk s
    · simp only [selectedStepsTrace, hok, if_pos]
      exact (List.cons_prefix_cons).mpr ⟨rfl, ih⟩
    · simp only [selectedStepsTrace, hok, Bool.false_eq_true, if_false]
      exact (List.cons_prefix_cons).mpr ⟨rfl, List.nil_prefix⟩

lemma selectedStepsTrace_failure (stepOk : String → Bool) :
    ∀ l : List String, (selectedStepsTrace stepOk l).2 = false →
      ∃ pre s, (selectedStepsTrace stepOk l).1 = pre ++ [s]
        ∧ stepOk s = false ∧ ∀ x ∈ pre, stepOk x = true := by
  intro l
  induction l with
  | nil => intro h; exact absurd h (by simp [selectedStepsTrace])
  | cons s rest ih =>
    intro h
    by_cases hok : stepOk s
    · simp only [selectedStepsTrace, hok, if_pos] at h ⊢
      obtain ⟨pre, t, heq, ht, hpre⟩ := ih h
      refine ⟨s :: pre, t, by rw [List.cons_append, heq], ht, ?_⟩
      intro x hx
      rcases List.mem_cons.mp hx with hx | hx
      · subst hx; exact hok
      · exact hpre x hx
    · simp only [selectedStepsTrace, hok, Bool.false_eq_true, if_false]
      exact ⟨[], s, rfl, by simpa using hok, by simp⟩

/-- C1: the orchestrator executes exactly the steps of the fixed order
`initialize, cook, stage, package` restricted to the selected subset, stopping
at the first failing step (refinement equality with `selectedStepsTrace`); the
steps entered are a prefix of the selected restriction of the fixed order; a
step whose name is not selected is never entered; on a failed run the trace is
some successful steps followed by the single failing step, with nothing after
it; and when the bulk configuration copy of `initialize` fails, `cook` is
never entered even if it was selected. -/
theorem packageRun_ordered_aborting (selected : List String) (stepOk : String → Bool) :
    packageRun selected stepOk
      = selectedStepsTrace stepOk (pipelineStepNames.filter (fun s => selected.contains s))
    ∧ (packageRun selected stepOk).1
        <+: pipelineStepNames.filter (fun s => selected.contains s)
    ∧ (∀ s, selected.contains s = false → s ∉ (packageRun selected stepOk).1)
    ∧ ((packageRun selected stepOk).2 = false →
        ∃ pre s, (packageRun selected stepOk).1 = pre ++ [s]
          ∧ stepOk s = false ∧ ∀ x ∈ pre, stepOk x = true)
    ∧ (∀ hookOk : Bool, selected.contains "initialize" = true →
        stepOk "initialize" = initStepSucceeds true false hookOk →
        "cook" ∉ (packageRun selected stepOk).1) := by
  have hmain := runPipeline_eq_trace selected stepOk pipelineStepNames
  refine ⟨hmain, ?_, ?_, ?_, ?_⟩
  · show (packageRun selected stepOk).1 <+: _
    rw [packageRun, hmain]
    exact selectedStepsTrace_isPrefix stepOk _
  · intro s hs hmem
    rw [packageRun, hmain] at hmem
    have := selectedStepsTrace_subset stepOk _ s hmem
    have hc := List.of_mem_filter this
    rw [hs] at hc
    exact Bool.false_ne_true hc
  · intro hfail
    rw [packageRun, hmain] at hfail ⊢
    exact selectedStepsTrace_failure stepOk _ hfail
  · intro hookOk hsel hfail
    have hfalse : stepOk "initialize" = false := by
      rw [hfail]; simp [initStepSucceeds]
    intro hmem
    rw [packageRun, hmain] at hmem
    have hfilter : pipelineStepNames.filter (fun s => selected.contains s)
        = "initialize" :: (["cook", "stage", "package"].filter (fun s => selected.contains s)) := by
      simp only [pipelineStepNames, List.filter_cons, hsel, if_pos]
    rw [hfilter] at hmem
    simp only [selectedStepsTrace, hfalse, Bool.false_eq_true, if_false] at hmem
    simp at hmem

/-- Witness for C1: with steps `initialize` and `cook` selected and every step
failing (as after a failed bulk copy), `cook` is never entered. -/
theorem packageRun_ordered_aborting_witness :
    "cook" ∉ (packageRun ["initialize", "cook"] (fun _ => false)).1 :=
  (packageRun_ordered_aborting ["initialize", "cook"] (fun _ => false)).2.2.2.2 true
    (by decide) (by decide)

lemma string_mk_data (s : String) : String.mk s.data = s := rfl

lemma data_append_assoc (key v : String) :
    (key ++ "=" ++ v).data = (key.data ++ ['=']) ++ v.data := by
  rw [String.data_append, String.data_append]

lemma drop_key_eq (key v : String) :
    (key ++ "=" ++ v).data.drop (key.length + 1) = v.data := by
  rw [data_append_assoc]
  have h2 : key.length + 1 = (key.data ++ ['=']).length := by
    rw [List.length_append]
    rfl
  rw [h2, List.drop_left]

lemma isPrefixOf_key (key v : String) : strStartsWith (key ++ "=") (key ++ "=" ++ v) = true := by
  show (key ++ "=").data.isPrefixOf (key ++ "=" ++ v).data = true
  rw [List.isPrefixOf_iff_prefix, data_append_assoc]
  have : (key ++ "=").data = key.data ++ ['='] := by
    rw [String.data_append]
  rw [this]
  exact List.prefix_append _ _

lemma findIniValue_no_match (key : String) :
    ∀ lines : List String, (∀ l ∈ lines, strStartsWith (key ++ "=") l = false) →
      findIniValue key lines = Except.error PkgError.keyNotFound := by
  intro lines
  induction lines with
  | nil => intro _; rfl
  | cons l rest ih =>
    intro h
    have hl := h l (List.mem_cons_self l rest)
    simp only [findIniValue, hl, Bool.false_eq_true, if_false]
    exact ih (fun x hx => h x (List.mem_cons_of_mem l hx))

lemma findIniValue_first_match (key v : String) :
    ∀ (pre post : List String), (∀ l ∈ pre, strStartsWith (key ++ "=") l = false) →
      findIniValue key (pre ++ (key ++ "=" ++ v) :: post) = Except.ok v := by
  intro pre post hpre
  induction pre with
  | nil =>
    simp only [List.nil_append, findIniValue, isPrefixOf_key, if_pos]
    rw [drop_key_eq, string_mk_data]
  | cons l rest ih =>
    have hl := hpre l (List.mem_cons_self l rest)
    simp only [List.cons_append, findIniValue, hl, Bool.false_eq_true, if_false]
    exact ih (fun x hx => hpre x (List.mem_cons_of_mem l hx))

/-- C2: `get_ini_value` returns exactly the trailing text after `=` of the
first line starting with `key=` (case-sensitive prefix match, value running to
the end of the line); when no line matches it fails with the key-not-found
error rather than returning a value; and when the file cannot be read it fails
with the file-not-found error. -/
theorem get_ini_value_spec (key v content : String) (pre post : List String) :
    get_ini_value none key = Except.error PkgError.fileNotFound
    ∧ ((∀ l ∈ iniLines content, strStartsWith (key ++ "=") l = false) →
        get_ini_value (some content) key = Except.error PkgError.keyNotFound)
    ∧ ((∀ l ∈ pre, strStartsWith (key ++ "=") l = false) →
        iniLines content = pre ++ (key ++ "=" ++ v) :: post →
        get_ini_value (some content) key = Except.ok v) := by
  refine ⟨rfl, ?_, ?_⟩
  · intro h
    exact findIniValue_no_match key (iniLines content) h
  · intro hpre hdecomp
    show findIniValue key (iniLines content) = Except.ok v
    rw [hdecomp]
    exact findIniValue_first_match key v pre post hpre

/-- Witness for C2: searching `TitleID` in a three-line ini file skips the
non-matching first line, returns the value of the first matching line, and a
missing key or unreadable file yields the corresponding errors. -/
theorem get_ini_value_spec_witness :
    get_ini_value (some "Foo=1\nTitleID=ABCD12345\nTitleID=ZZ") "TitleID"
        = Except.ok "ABCD12345"
    ∧ get_ini_value (some "Foo=1\nTitleID=ABCD12345\nTitleID=ZZ") "ContentId"
        = Except.error PkgError.keyNotFound
    ∧ get_ini_value none "TitleID" = Except.error PkgError.fileNotFound := by
  refine ⟨?_, ?_, ?_⟩
  · exact (get_ini_value_spec "TitleID" "ABCD12345" "Foo=1\nTitleID=ABCD12345\nTitleID=ZZ"
      ["Foo=1"] ["TitleID=ZZ"]).2.2 (by decide) (by decide)
  · exact (get_ini_value_spec "ContentId" "" "Foo=1\nTitleID=ABCD12345\nTitleID=ZZ"
      [] []).2.1 (by decide)
  · exact (get_ini_value_spec "TitleID" "" "" [] []).1

/-! ## File stager (`Package._stage_file`, package.py lines 193-208) -/

/-- The opening marker of a debug-only section (package.py line 204). -/
def debugOpenMarker : List Char := "<!-- #if Debug -->".data

/-- The closing marker of a debug-only section (package.py line 204). -/
def debugCloseMarker : List Char := "<!-- #endif Debug -->".data

/-- Finds the first occurrence of `needle` in a character list, returning the
text before it and the text after it. -/
def splitFirst (needle : List Char) : List Char → Option (List Char × List Char)
  | [] => none
  | c :: cs =>
    if needle.isPrefixOf (c :: cs) then some ([], (c :: cs).drop needle.length)
    else
      match splitFirst needle cs with
      | none => none
      | some (b, a) => some (c :: b, a)

/-- `re.sub(r'<!-- #if Debug -->(.*?)<!-- #endif Debug -->', '', content, 0,
re.DOTALL)` (package.py line 204): repeatedly remove the leftmost inclusive
span from an opening marker to the first closing marker after it (non-greedy,
`DOTALL` lets the span cross lines), continuing after the removed span.  The
fuel argument bounds the number of removals; each removal consumes at least
the two markers, so `cs.length` is always enough fuel. -/
def stripDebugAux : Nat → List Char → List Char
  | 0, cs => cs
  | fuel + 1, cs =>
    match splitFirst debugOpenMarker cs with
    | none => cs
    | some (before, after) =>
      match splitFirst debugCloseMarker after with
      | none => cs
      | some (_, rest) => before ++ stripDebugAux fuel rest

/-- String-level debug-section removal. -/
def stripDebugSections (s : String) : String :=
  String.mk (stripDebugAux s.data.length s.data)

/-- The bare-field fragment of `file_content.format(configuration = ...)`
(package.py line 202), sufficient for the inputs of the staging claims about
exact `{configuration}` tokens and brace-free text: in normal mode
(`inField = false`) ordinary characters are copied, `{{`/`}}` unescape to a
single brace, a lone `}` is an error and `{` enters field mode; in field mode
(`inField = true`) the field name is accumulated (reversed) in `acc` until
`}`, a field name other than `configuration` (the only bound key) is an
error, as is a `{` or the end of the text inside a field.  On this fragment
it agrees with `pyFmtFull` below, which embeds the full replacement-field
grammar (conversion and format-spec suffixes included). -/
def pyFmtGo (value : List Char) : Bool → List Char → List Char → Option (List Char)
  | false, _, [] => some []
  | false, _, c :: rest =>
    if c = '{' then
      match rest with
      | c2 :: rest2 =>
        if c2 = '{' then Option.map (fun r => '{' :: r) (pyFmtGo value false [] rest2)
        else pyFmtGo value true [] (c2 :: rest2)
      | [] => none
    else if c = '}' then
      match rest with
      | c2 :: rest2 =>
        if c2 = '}' then Option.map (fun r => '}' :: r) (pyFmtGo value false [] rest2)
        else none
      | [] => none
    else Option.map (fun r => c :: r) (pyFmtGo value false [] rest)
  | true, _, [] => none
  | true, acc, c :: rest =>
    if c = '}' then
      if acc.reverse = "configuration".data then
        Option.map (fun r => value ++ r) (pyFmtGo value false [] rest)
      else none
    else if c = '{' then none
    else pyFmtGo value true (c :: acc) rest

/-- String-level `content.format(configuration = value)`; `none` embeds the
`KeyError`/`ValueError`/`IndexError` raised on any other field or stray
brace. -/
def pyFormatConfiguration (value s : String) : Option String :=
  Option.map String.mk (pyFmtGo value.data false [] s.data)

/-- Python's `str.lower` for the ASCII configuration names used here. -/
def lowerStr (s : String) : String := String.mk (s.data.map Char.toLower)

/-- The configuration value substituted by `_stage_file` (package.py line
202): `configuration if platform != 'PS4' else configuration.lower()`. -/
def effectiveConfiguration (platform configuration : String) : String :=
  if platform ≠ "PS4" then configuration else lowerStr configuration

/-- `Package._stage_file` (package.py lines 193-208) on file contents: the
result is the content written to the destination, or `none` when staging
raises and writes nothing.  Without `apply_transform` the source is copied
byte for byte; with it, the source text is formatted with the configuration
key and, exactly when the configuration is `Shipping`, the debug-only spans
are removed. -/
def stage_file (source : String) (apply_transform : Bool) (platform configuration : String) :
    Option String :=
  if apply_transform then
    Option.map (fun c => if configuration = "Shipping" then stripDebugSections c else c)
      (pyFormatConfiguration (effectiveConfiguration platform configuration) source)
  else some source

lemma splitFirst_eq (needle : List Char) :
    ∀ (hay b a : List Char), splitFirst needle hay = some (b, a) → hay = b ++ needle ++ a := by
  intro hay
  induction hay with
  | nil => intro b a h; simp [splitFirst] at h
  | cons c cs ih =>
    intro b a h
    by_cases hpre : needle.isPrefixOf (c :: cs)
    · simp only [splitFirst, hpre, if_pos] at h
      obtain ⟨t, ht⟩ := List.isPrefixOf_iff_prefix.mp hpre
      rw [← ht, List.drop_left] at h
      injection h with h2
      injection h2 with hb ha
      rw [← hb, ← ha, List.nil_append, ht]
    · simp only [splitFirst, hpre, Bool.false_eq_true, if_false] at h
      rcases h2 : splitFirst needle cs with _ | ⟨b', a'⟩
      · rw [h2] at h; simp at h
      · rw [h2] at h
        simp only [Option.some.injEq, Prod.mk.injEq] at h
        obtain ⟨hb, ha⟩ := h
        rw [← hb, ← ha, List.cons_append, List.cons_append]
        rw [← List.cons_append, ih b' a' h2]
        simp

lemma splitFirst_none_of_clean (hd : Char) (tl : List Char) :
    ∀ cs : List Char, (∀ c ∈ cs, c ≠ hd) → splitFirst (hd :: tl) cs = none := by
  intro cs
  induction cs with
  | nil => intro _; rfl
  | cons c rest ih =>
    intro h
    have hc : c ≠ hd := h c (List.mem_cons_self c rest)
    have hpre : (hd :: tl).isPrefixOf (c :: rest) = false := by
      simp only [List.isPrefixOf, Bool.and_eq_false_iff]
      left
      exact beq_eq_false_iff_ne.mpr (Ne.symm hc)
    simp only [splitFirst, hpre, Bool.false_eq_true, if_false]
    rw [ih (fun x hx => h x (List.mem_cons_of_mem c hx))]

lemma splitFirst_first_occurrence (hd : Char) (tl : List Char) :
    ∀ (p t : List Char), (∀ c ∈ p, c ≠ hd) →
      splitFirst (hd :: tl) (p ++ ((hd :: tl) ++ t)) = some (p, t) := by
  intro p
  induction p with
  | nil =>
    intro t _
    rw [List.nil_append, List.cons_append]
    have hpre : (hd :: tl).isPrefixOf (hd :: (tl ++ t)) = true := by
      rw [List.isPrefixOf_iff_prefix, ← List.cons_append]
      exact List.prefix_append _ _
    have hdrop : (hd :: (tl ++ t)).drop (hd :: tl).length = t := by
      rw [← List.cons_append, List.drop_left]
    simp only [splitFirst, hpre, if_pos, hdrop]
  | cons c p' ih =>
    intro t h
    have hc : c ≠ hd := h c (List.mem_cons_self c p')
    rw [List.cons_append]
    have hpre : (hd :: tl).isPrefixOf (c :: (p' ++ ((hd :: tl) ++ t))) = false := by
      simp only [List.isPrefixOf, Bool.and_eq_false_iff]
      left
      exact beq_eq_false_iff_ne.mpr (Ne.symm hc)
    simp only [splitFirst, hpre, Bool.false_eq_true, if_false]
    rw [ih t (fun x hx => h x (List.mem_cons_of_mem c hx))]

lemma debugOpenMarker_cons : debugOpenMarker = '<' :: "!-- #if Debug -->".data := rfl

lemma debugCloseMarker_cons : debugCloseMarker = '<' :: "!-- #endif Debug -->".data := rfl

lemma stripDebugAux_nil : ∀ fuel : Nat, stripDebugAux fuel [] = [] := by
  intro fuel
  cases fuel with
  | zero => rfl
  | succ n => rfl

lemma stripDebugAux_congr : ∀ (n : Nat) (cs : List Char) (f₁ f₂ : Nat),
    cs.length ≤ n → cs.length ≤ f₁ → cs.length ≤ f₂ →
    stripDebugAux f₁ cs = stripDebugAux f₂ cs := by
  intro n
  induction n with
  | zero =>
    intro cs f₁ f₂ hn _ _
    have hcs : cs = [] := List.eq_nil_of_length_eq_zero (Nat.le_zero.mp hn)
    rw [hcs, stripDebugAux_nil, stripDebugAux_nil]
  | succ n ih =>
    intro cs f₁ f₂ hn h1 h2
    cases f₁ with
    | zero =>
      have hcs : cs = [] := List.eq_nil_of_length_eq_zero (Nat.le_zero.mp h1)
      rw [hcs, stripDebugAux_nil, stripDebugAux_nil]
    | succ a =>
      cases f₂ with
      | zero =>
        have hcs : cs = [] := List.eq_nil_of_length_eq_zero (Nat.le_zero.mp h2)
        rw [hcs, stripDebugAux_nil, stripDebugAux_nil]
      | succ b =>
        rcases hopen : splitFirst debugOpenMarker cs with _ | ⟨before, after⟩
        · simp only [stripDebugAux, hopen]
        · rcases hclose : splitFirst debugCloseMarker after with _ | ⟨body, rest⟩
          · simp only [stripDebugAux, hopen, hclose]
          · simp only [stripDebugAux, hopen, hclose]
            have e1 := splitFirst_eq _ _ _ _ hopen
            have e2 := splitFirst_eq _ _ _ _ hclose
            have hrest : rest.length + 1 ≤ cs.length := by
              rw [e1, e2]
              simp only [List.length_append]
              have ho : debugOpenMarker.length = 18 := rfl
              have hc : debugCloseMarker.length = 21 := rfl
              omega
            congr 1
            exact ih rest a b (by omega) (by omega) (by omega)

lemma stripDebugAux_clean (cs : List Char) (h : ∀ c ∈ cs, c ≠ '<') :
    ∀ fuel : Nat, stripDebugAux fuel cs = cs := by
  intro fuel
  cases fuel with
  | zero => rfl
  | succ n =>
    have hnone : splitFirst debugOpenMarker cs = none := by
      rw [debugOpenMarker_cons]
      exact splitFirst_none_of_clean '<' _ cs h
    simp only [stripDebugAux, hnone]

lemma stripDebugAux_removes (p b rest : List Char)
    (hp : ∀ c ∈ p, c ≠ '<') (hb : ∀ c ∈ b, c ≠ '<') :
    ∀ fuel : Nat, (p ++ (debugOpenMarker ++ (b ++ (debugCloseMarker ++ rest)))).length ≤ fuel →
      stripDebugAux fuel (p ++ (debugOpenMarker ++ (b ++ (debugCloseMarker ++ rest))))
        = p ++ stripDebugAux rest.length rest := by
  intro fuel hfuel
  have hlen : (p ++ (debugOpenMarker ++ (b ++ (debugCloseMarker ++ rest)))).length
      = p.length + 18 + b.length + 21 + rest.length := by
    simp only [List.length_append]
    have ho : debugOpenMarker.length = 18 := rfl
    have hc : debugCloseMarker.length = 21 := rfl
    omega
  cases fuel with
  | zero => omega
  | succ n =>
    have hopen : splitFirst debugOpenMarker (p ++ (debugOpenMarker ++ (b ++ (debugCloseMarker ++ rest))))
        = some (p, b ++ (debugCloseMarker ++ rest)) := by
      rw [debugOpenMarker_cons]
      exact splitFirst_first_occurrence '<' _ p _ hp
    have hclose : splitFirst debugCloseMarker (b ++ (debugCloseMarker ++ rest)) = some (b, rest) := by
      rw [debugCloseMarker_cons]
      exact splitFirst_first_occurrence '<' _ b rest hb
    simp only [stripDebugAux, hopen, hclose]
    congr 1
    exact stripDebugAux_congr rest.length rest n rest.length (le_refl _) (by omega) (le_refl _)

lemma pyFmtGo_clean (v : List Char) :
    ∀ cs : List Char, (∀ c ∈ cs, c ≠ '{' ∧ c ≠ '}') →
      ∀ acc, pyFmtGo v false acc cs = some cs := by
  intro cs
  induction cs with
  | nil => intro _ acc; rfl
  | cons c rest ih =>
    intro h acc
    obtain ⟨hc1, hc2⟩ := h c (List.mem_cons_self c rest)
    cases rest with
    | nil => rw [pyFmtGo.eq_3, if_neg hc1, if_neg hc2]; rfl
    | cons c2 rest2 =>
      rw [pyFmtGo.eq_2, if_neg hc1, if_neg hc2]
      rw [ih (fun x hx => h x (List.mem_cons_of_mem c hx)) []]
      rfl

lemma pyFmtGo_field_scan (v : List Char) :
    ∀ (name acc rest : List Char), (∀ c ∈ name, c ≠ '{' ∧ c ≠ '}') →
      pyFmtGo v true acc (name ++ '}' :: rest)
        = if acc.reverse ++ name = "configuration".data
          then Option.map (fun r => v ++ r) (pyFmtGo v false [] rest)
          else none := by
  intro name
  induction name with
  | nil =>
    intro acc rest _
    rw [List.nil_append, List.append_nil, pyFmtGo.eq_5, if_pos rfl]
  | cons c name' ih =>
    intro acc rest h
    obtain ⟨hc1, hc2⟩ := h c (List.mem_cons_self c name')
    rw [List.cons_append, pyFmtGo.eq_5, if_neg hc2, if_neg hc1]
    rw [ih (c :: acc) rest (fun x hx => h x (List.mem_cons_of_mem c hx))]
    rw [List.reverse_cons, List.append_assoc, List.singleton_append]

lemma pyFmtGo_open_cons (v : List Char) (c2 : Char) (rest2 : List Char) (h : ¬c2 = '{') :
    pyFmtGo v false [] ('{' :: c2 :: rest2) = pyFmtGo v true [] (c2 :: rest2) := by
  rw [pyFmtGo.eq_2, if_pos rfl, if_neg h]

lemma pyFmtGo_subst (v : List Char) (rest : List Char) :
    pyFmtGo v false [] ('{' :: ("configuration".data ++ '}' :: rest))
      = Option.map (fun r => v ++ r) (pyFmtGo v false [] rest) := by
  rw [show '{' :: ("configuration".data ++ '}' :: rest)
      = '{' :: 'c' :: ("onfiguration".data ++ '}' :: rest) from rfl]
  rw [pyFmtGo_open_cons v 'c' _ (by decide)]
  rw [show 'c' :: ("onfiguration".data ++ '}' :: rest)
      = "configuration".data ++ '}' :: rest from rfl]
  rw [pyFmtGo_field_scan v "configuration".data [] rest (by decide)]
  rw [if_pos (by simp)]

/-! ## Stage-file transformation properties -/

/-- Concatenation of a list of strings, in order. -/
def concatStrs : List String → String
  | [] => ""
  | s :: rest => s ++ concatStrs rest

/-- A source text interleaving kept parts with debug-only spans: each pair
`(p, b)` contributes the kept text `p` followed by the span
`<!-- #if Debug -->b<!-- #endif Debug -->`, and `last` closes the text. -/
def interleaveDebug : List (String × String) → String → String
  | [], last => last
  | (p, b) :: rest, last =>
      p ++ "<!-- #if Debug -->" ++ b ++ "<!-- #endif Debug -->" ++ interleaveDebug rest last

/-- Text free of the characters that interact with marker matching and with
configuration-token substitution. -/
def templateClean (s : String) : Prop :=
  ∀ c ∈ s.data, c ≠ '<' ∧ c ≠ '{' ∧ c ≠ '}'

instance (s : String) : Decidable (templateClean s) :=
  inferInstanceAs (Decidable (∀ c ∈ s.data, c ≠ '<' ∧ c ≠ '{' ∧ c ≠ '}'))

/-- No occurrence of either debug-section delimiter marker. -/
def markerFree (s : String) : Prop :=
  splitFirst debugOpenMarker s.data = none ∧ splitFirst debugCloseMarker s.data = none

instance (s : String) : Decidable (markerFree s) :=
  inferInstanceAs (Decidable (_ ∧ _))

lemma templateClean_append (a b : String) (ha : templateClean a) (hb : templateClean b) :
    templateClean (a ++ b) := by
  intro c hc
  rw [String.data_append, List.mem_append] at hc
  rcases hc with h | h
  · exact ha c h
  · exact hb c h

lemma templateClean_concat (l : List String) (h : ∀ s ∈ l, templateClean s) :
    templateClean (concatStrs l) := by
  induction l with
  | nil => intro c hc; simp [concatStrs] at hc
  | cons s rest ih =>
    exact templateClean_append s (concatStrs rest) (h s (List.mem_cons_self s rest))
      (ih (fun x hx => h x (List.mem_cons_of_mem s hx)))

lemma interleave_cons_data (p b : String) (rest : List (String × String)) (last : String) :
    (interleaveDebug ((p, b) :: rest) last).data
      = p.data ++ (debugOpenMarker ++ (b.data ++ (debugCloseMarker ++ (interleaveDebug rest last).data))) := by
  show (p ++ "<!-- #if Debug -->" ++ b ++ "<!-- #endif Debug -->" ++ interleaveDebug rest last).data = _
  rw [String.data_append, String.data_append, String.data_append, String.data_append]
  simp [List.append_assoc, debugOpenMarker, debugCloseMarker]

lemma interleave_braceClean (segs : List (String × String)) (last : String)
    (hsegs : ∀ pb ∈ segs, templateClean pb.1 ∧ templateClean pb.2) (hlast : templateClean last) :
    ∀ c ∈ (interleaveDebug segs last).data, c ≠ '{' ∧ c ≠ '}' := by
  induction segs with
  | nil =>
    intro c hc
    exact ⟨(hlast c hc).2.1, (hlast c hc).2.2⟩
  | cons pb rest ih =>
    obtain ⟨p, b⟩ := pb
    intro c hc
    rw [interleave_cons_data, List.mem_append, List.mem_append, List.mem_append,
      List.mem_append] at hc
    obtain ⟨hp, hb⟩ := hsegs (p, b) (List.mem_cons_self _ rest)
    rcases hc with h | h | h | h | h
    · exact ⟨(hp c h).2.1, (hp c h).2.2⟩
    · revert h c; decide
    · exact ⟨(hb c h).2.1, (hb c h).2.2⟩
    · revert h c; decide
    · exact ih (fun x hx => hsegs x (List.mem_cons_of_mem _ hx)) c h

lemma strip_interleave : ∀ (segs : List (String × String)) (last : String),
    (∀ pb ∈ segs, templateClean pb.1 ∧ templateClean pb.2) → templateClean last →
    ∀ fuel : Nat, (interleaveDebug segs last).data.length ≤ fuel →
      stripDebugAux fuel (interleaveDebug segs last).data
        = (concatStrs (segs.map Prod.fst) ++ last).data := by
  intro segs
  induction segs with
  | nil =>
    intro last _ hlast fuel _
    show stripDebugAux fuel last.data = ("" ++ last).data
    rw [String.data_append]
    rw [show ("" : String).data = [] from rfl, List.nil_append]
    exact stripDebugAux_clean last.data (fun c hc => (hlast c hc).1) fuel
  | cons pb rest ih =>
    intro last hsegs hlast fuel hfuel
    obtain ⟨p, b⟩ := pb
    obtain ⟨hp, hb⟩ := hsegs (p, b) (List.mem_cons_self _ rest)
    rw [interleave_cons_data] at hfuel ⊢
    rw [stripDebugAux_removes p.data b.data (interleaveDebug rest last).data
      (fun c hc => (hp c hc).1) (fun c hc => (hb c hc).1) fuel hfuel]
    rw [ih last (fun x hx => hsegs x (List.mem_cons_of_mem _ hx)) hlast
      (interleaveDebug rest last).data.length (le_refl _)]
    show p.data ++ (concatStrs (rest.map Prod.fst) ++ last).data
        = ((p ++ concatStrs (rest.map Prod.fst)) ++ last).data
    rw [String.data_append, String.data_append, String.data_append, List.append_assoc]

lemma stage_file_transform (source platform configuration : String) :
    stage_file source true platform configuration
      = Option.map (fun c => if configuration = "Shipping" then stripDebugSections c else c)
          (pyFormatConfiguration (effectiveConfiguration platform configuration) source) := rfl

lemma pyFormat_braceClean (v s : String) (h : ∀ c ∈ s.data, c ≠ '{' ∧ c ≠ '}') :
    pyFormatConfiguration v s = some s := by
  show Option.map String.mk (pyFmtGo v.data false [] s.data) = some s
  rw [pyFmtGo_clean v.data s.data h []]
  rfl

/-- C4: staging with `transform` and the release-tier configuration `Shipping`
removes every inclusive debug-delimited span — for any source text made of
marker-and-brace-free kept parts interleaved with debug spans (whose bodies
may contain newlines), the output is exactly the kept parts — and the output
contains no delimiter marker of either kind; staging with any other
configuration substitutes the configuration token but removes no span: a
leading `{configuration}` token becomes the effective configuration value and
the rest of the text, spans included, is unchanged. -/
theorem stage_file_shipping_strips (platform : String) (segs : List (String × String))
    (last : String)
    (hsegs : ∀ pb ∈ segs, templateClean pb.1 ∧ templateClean pb.2)
    (hlast : templateClean last) :
    stage_file (interleaveDebug segs last) true platform "Shipping"
        = some (concatStrs (segs.map Prod.fst) ++ last)
    ∧ markerFree (concatStrs (segs.map Prod.fst) ++ last)
    ∧ (∀ configuration, configuration ≠ "Shipping" →
        stage_file (interleaveDebug segs last) true platform configuration
          = some (interleaveDebug segs last))
    ∧ (∀ configuration, configuration ≠ "Shipping" →
        stage_file ("{configuration}" ++ interleaveDebug segs last) true platform configuration
          = some (effectiveConfiguration platform configuration ++ interleaveDebug segs last)) := by
  have hclean := interleave_braceClean segs last hsegs hlast
  have houtclean : templateClean (concatStrs (segs.map Prod.fst) ++ last) := by
    refine templateClean_append _ _ (templateClean_concat _ ?_) hlast
    intro s hs
    rw [List.mem_map] at hs
    obtain ⟨pb, hpb, rfl⟩ := hs
    exact (hsegs pb hpb).1
  refine ⟨?_, ?_, ?_, ?_⟩
  · have hfmt := pyFormat_braceClean (effectiveConfiguration platform "Shipping")
      (interleaveDebug segs last) hclean
    rw [stage_file_transform, hfmt]
    simp only [Option.map_some', if_pos rfl]
    congr 1
    show String.mk (stripDebugAux (interleaveDebug segs last).data.length
      (interleaveDebug segs last).data) = _
    rw [strip_interleave segs last hsegs hlast _ (le_refl _)]
  · constructor
    · rw [debugOpenMarker_cons]
      exact splitFirst_none_of_clean '<' _ _ (fun c hc => (houtclean c hc).1)
    · rw [debugCloseMarker_cons]
      exact splitFirst_none_of_clean '<' _ _ (fun c hc => (houtclean c hc).1)
  · intro configuration hcfg
    have hfmt := pyFormat_braceClean (effectiveConfiguration platform configuration)
      (interleaveDebug segs last) hclean
    rw [stage_file_transform, hfmt]
    simp only [Option.map_some', if_neg hcfg]
  · intro configuration hcfg
    have hdata : ("{configuration}" ++ interleaveDebug segs last).data
        = '{' :: ("configuration".data ++ '}' :: (interleaveDebug segs last).data) := by
      rw [String.data_append]
      rfl
    have hfmt : pyFormatConfiguration (effectiveConfiguration platform configuration)
        ("{configuration}" ++ interleaveDebug segs last)
        = some (effectiveConfiguration platform configuration ++ interleaveDebug segs last) := by
      show Option.map String.mk (pyFmtGo (effectiveConfiguration platform configuration).data
        false [] ("{configuration}" ++ interleaveDebug segs last).data) = _
      rw [hdata, pyFmtGo_subst,
        pyFmtGo_clean (effectiveConfiguration platform configuration).data
          (interleaveDebug segs last).data hclean []]
      simp only [Option.map_some']
      rw [← String.data_append, string_mk_data]
    rw [stage_file_transform, hfmt]
    simp only [Option.map_some', if_neg hcfg]

/-- Witness for C4: a two-span source text with a multi-line span body is
stripped to its kept parts under `Shipping` and left unchanged under
`Debug`. -/
theorem stage_file_shipping_strips_witness :
    stage_file (interleaveDebug [("keep1", "hidden\nhidden2"), ("keep2", "x")] "tail")
        true "Win64" "Shipping" = some "keep1keep2tail"
    ∧ markerFree "keep1keep2tail"
    ∧ stage_file (interleaveDebug [("keep1", "hidden\nhidden2"), ("keep2", "x")] "tail")
        true "Win64" "Debug"
        = some (interleaveDebug [("keep1", "hidden\nhidden2"), ("keep2", "x")] "tail") := by
  have h := stage_file_shipping_strips "Win64" [("keep1", "hidden\nhidden2"), ("keep2", "x")]
    "tail" (by decide) (by decide)
  have he : concatStrs ([("keep1", "hidden\nhidden2"), ("keep2", "x")].map Prod.fst) ++ "tail"
      = "keep1keep2tail" := by decide
  refine ⟨?_, ?_, h.2.2.1 "Debug" (by decide)⟩
  · have h1 := h.1
    rw [he] at h1
    exact h1
  · have h2 := h.2.1
    rw [he] at h2
    exact h2

/-- C5 counterexample: the claim says the configuration token is lower-cased
exactly for the first console family (`XboxOne`); in the code the lower-casing
branch is taken for `PS4` instead.  Staging `{configuration}` for `XboxOne`
with configuration `Debug` yields `Debug`, not the lower-cased `debug` the
claim requires, and for `PS4` it yields the lower-cased form the claim
forbids. -/
theorem stage_file_lowercase_counterexample :
    stage_file "{configuration}" true "XboxOne" "Debug" = some "Debug"
    ∧ stage_file "{configuration}" true "PS4" "Debug" = some "debug"
    ∧ ("Debug" : String) ≠ "debug" :=
  ⟨by decide, by decide, by decide⟩

/-- C5 (amended): the `{configuration}` token is substituted with the
configuration name lower-cased if and only if the platform is `PS4` (the
second console family); for every other platform, `XboxOne` included, the name
is substituted unchanged. -/
theorem stage_file_lowercases_iff_ps4 (platform configuration : String)
    (hclean : ∀ c ∈ (effectiveConfiguration platform configuration).data, c ≠ '<') :
    stage_file "{configuration}" true platform configuration
      = some (if platform = "PS4" then lowerStr configuration else configuration) := by
  have hsubst : pyFormatConfiguration (effectiveConfiguration platform configuration)
      "{configuration}" = some (effectiveConfiguration platform configuration) := by
    show Option.map String.mk (pyFmtGo (effectiveConfiguration platform configuration).data
      false [] "{configuration}".data) = _
    rw [show "{configuration}".data = '{' :: ("configuration".data ++ '}' :: []) from rfl]
    rw [pyFmtGo_subst]
    rw [show pyFmtGo (effectiveConfiguration platform configuration).data false [] []
      = some [] from rfl]
    simp only [Option.map_some', List.append_nil, string_mk_data]
  rw [stage_file_transform, hsubst]
  simp only [Option.map_some']
  have hstrip : (if configuration = "Shipping"
      then stripDebugSections (effectiveConfiguration platform configuration)
      else effectiveConfiguration platform configuration)
      = effectiveConfiguration platform configuration := by
    by_cases hc : configuration = "Shipping"
    · rw [if_pos hc]
      show String.mk (stripDebugAux _ _) = _
      rw [stripDebugAux_clean _ hclean]
    · rw [if_neg hc]
  rw [hstrip]
  congr 1
  rw [effectiveConfiguration]
  by_cases hps : platform = "PS4"
  · rw [if_neg (not_not_intro hps), if_pos hps]
  · rw [if_pos hps, if_neg hps]

/-- Witness for C5 (amended): for `PS4` with configuration `Shipping` the
token becomes the lower-cased `shipping`. -/
theorem stage_file_lowercases_iff_ps4_witness :
    stage_file "{configuration}" true "PS4" "Shipping" = some "shipping" :=
  (stage_file_lowercases_iff_ps4 "PS4" "Shipping" (by decide)).trans (by decide)

/-! ## Platform packaging (`Package._package_for_platform`, package.py lines 211-276) -/

/-- `configuration.split('+')` (package.py lines 147, 176, 235, 264): Python's
`str.split` with an explicit separator, keeping empty pieces. -/
def splitPlusAux : List Char → List Char → List (List Char)
  | acc, [] => [acc.reverse]
  | acc, '+' :: rest => acc.reverse :: splitPlusAux [] rest
  | acc, c :: rest => splitPlusAux (c :: acc) rest

/-- The atomic configuration names of a `+`-joined configuration string, in
order. -/
def atomicConfigs (configuration : String) : List String :=
  (splitPlusAux [] configuration.data).map String.mk

/-- `shutil.copyfile` of each manifest into the source directory (package.py
lines 249-251), at the file-name level: a copied name is added to the
directory listing unless already present (in which case the file is
overwritten in place).  Directories are lists of distinct file names. -/
def copyManifests (dir : List String) (manifests : List String) : List String :=
  manifests.foldl (fun acc m => if m ∈ acc then acc else acc ++ [m]) dir

/-- `os.remove` of each copied manifest (package.py lines 253-254). -/
def removeManifests (dir : List String) (manifests : List String) : List String :=
  manifests.foldl (fun acc m => acc.erase m) dir

/-- One iteration of the first-console packaging loop (package.py lines
247-256) over the source directory contents: copy every file of the
per-configuration manifest directory into the source directory, run the
packaging tool (abstracted by its exit status), remove the copied manifest
files again, and only then fail when the exit status was non-zero.  The
returned directory contents are those after the unconditional cleanup. -/
def xboxPackageConfigStep (dir : List String) (manifests : List String) (exitCode : Nat) :
    List String × Except PkgError Unit :=
  let copied := copyManifests dir manifests
  let cleaned := removeManifests copied manifests
  (cleaned, if exitCode = 0 then Except.ok () else Except.error PkgError.processFailure)

/-- The first-console packaging loop (package.py lines 235-256): one
`xboxPackageConfigStep` per atomic configuration, stopping at the first
failure; on success returns the configurations processed, in order. -/
def xboxPackageLoop (manifestsFor : String → List String) (exitFor : String → Nat) :
    List String → List String → List String × Except PkgError (List String)
  | dir, [] => (dir, Except.ok [])
  | dir, cfg :: rest =>
    let step := xboxPackageConfigStep dir (manifestsFor cfg) (exitFor cfg)
    match step.2 with
    | Except.error e => (step.1, Except.error e)
    | Except.ok _ =>
      let r := xboxPackageLoop manifestsFor exitFor step.1 rest
      (r.1, Except.map (fun l => cfg :: l) r.2)

/-- The artifact file name computed at package.py line 265:
`<game>-<configuration>-<titleid>.pkg`. -/
def ps4ArtifactName (game configuration titleId : String) : String :=
  game ++ "-" ++ configuration ++ "-" ++ titleId ++ ".pkg"

/-- The second-console packaging loop (package.py lines 264-276): per atomic
configuration, compute the artifact name, run `orbis-pub-cmd img_create`
(abstracted by its exit status per destination file), and raise on the first
non-zero status.  Returns the artifacts produced, in order. -/
def ps4PackageLoop (game titleId : String) (exitFor : String → Nat) :
    List String → Except PkgError (List String)
  | [] => Except.ok []
  | cfg :: rest =>
    let dest := ps4ArtifactName game cfg titleId
    if exitFor dest = 0 then
      Except.map (fun l => dest :: l) (ps4PackageLoop game titleId exitFor rest)
    else Except.error PkgError.processFailure

/-- The `PS4` branch of `_package_for_platform` after the title id was read:
the loop over the split configuration string. -/
def package_ps4 (game configuration titleId : String) (exitFor : String → Nat) :
    Except PkgError (List String) :=
  ps4PackageLoop game titleId exitFor (atomicConfigs configuration)

/-- `os.makedirs` (package.py line 219): creates the directory, raising when
it already exists. -/
def makedirsDir : Option (List String) → Except PkgError (Option (List String))
  | some _ => Except.error PkgError.ioFailure
  | none => Except.ok (some [])

/-- Destination preparation at the start of `_package_for_platform`
(package.py lines 216-219): remove the directory tree when it exists
(`shutil.rmtree`), then create it fresh. -/
def preparePackageDirectory (dest : Option (List String)) :
    Except PkgError (Option (List String)) :=
  let removed := if dest.isSome then none else dest
  makedirsDir removed

/-- The three platform families of the packaging dispatch (spec section 4.4). -/
inductive PlatformFamily where
  | desktop
  | firstConsole
  | secondConsole
deriving DecidableEq

/-- The `if/elif` platform dispatch of `_package_for_platform` (package.py
lines 221, 228, 258): the four desktop identifiers, then `XboxOne`, then
`PS4`; any other platform identifier selects no strategy. -/
def dispatchPlatform (platform : String) : Option PlatformFamily :=
  if platform = "Linux" ∨ platform = "Mac" ∨ platform = "Win32" ∨ platform = "Win64" then
    some PlatformFamily.desktop
  else if platform = "XboxOne" then some PlatformFamily.firstConsole
  else if platform = "PS4" then some PlatformFamily.secondConsole
  else none

/-- `Package._package_for_platform` at the dispatch level: prepare the
destination directory, then run the selected platform strategy (abstracted by
`strategy`, which yields artifact names or a failure); with no strategy
selected the function falls through and returns normally.  The result carries
the destination contents and the artifacts produced. -/
def package_for_platform (platform : String) (dest : Option (List String))
    (strategy : PlatformFamily → Except PkgError (List String)) :
    Except PkgError (Option (List String) × List String) :=
  match preparePackageDirectory dest with
  | Except.error e => Except.error e
  | Except.ok fresh =>
    match dispatchPlatform platform with
    | some fam => Except.map (fun arts => (fresh, arts)) (strategy fam)
    | none => Except.ok (fresh, [])

/-- The one-character content written to each placeholder chunk file
(package.py lines 141-144): `empty_file.write('\0')`. -/
def chunkFileContent : String := String.mk [Char.ofNat 0]

/-- The two placeholder chunk files created in the stage directory right
after the first-console manifest fix-ups (package.py lines 140-144), with
their contents, in creation order. -/
def stageXboxChunkWrites (stageDirectory : String) : List (String × String) :=
  [(stageDirectory ++ "/LaunchChunk.bin", chunkFileContent),
   (stageDirectory ++ "/AlignmentChunk.bin", chunkFileContent)]

lemma not_mem_erase_foldl (x : String) :
    ∀ (ms l : List String), x ∉ l → x ∉ removeManifests l ms := by
  intro ms
  induction ms with
  | nil => intro l h; exact h
  | cons m rest ih =>
    intro l h
    show x ∉ removeManifests (l.erase m) rest
    exact ih (l.erase m) (fun hx => h (List.mem_of_mem_erase hx))

lemma nodup_copyManifests :
    ∀ (ms l : List String), l.Nodup → (copyManifests l ms).Nodup := by
  intro ms
  induction ms with
  | nil => intro l h; exact h
  | cons m rest ih =>
    intro l h
    show (copyManifests (if m ∈ l then l else l ++ [m]) rest).Nodup
    apply ih
    by_cases hm : m ∈ l
    · rw [if_pos hm]; exact h
    · rw [if_neg hm, List.nodup_append]
      exact ⟨h, List.nodup_singleton m, by simpa using hm⟩

lemma not_mem_removeManifests (x : String) :
    ∀ (ms l : List String), l.Nodup → x ∈ ms → x ∉ removeManifests l ms := by
  intro ms
  induction ms with
  | nil => intro l _ hx; simp at hx
  | cons m rest ih =>
    intro l hnd hx
    show x ∉ removeManifests (l.erase m) rest
    rw [List.mem_cons] at hx
    by_cases hxr : x ∈ rest
    · exact ih (l.erase m) (hnd.erase m) hxr
    · have hxm : x = m := by tauto
      subst hxm
      apply not_mem_erase_foldl
      intro hmem
      rw [List.Nodup.mem_erase_iff hnd] at hmem
      exact hmem.1 rfl

/-- C3: in the first-console packaging loop body, the manifest files copied
into the source directory are removed again no matter what the packaging tool
returned — the directory contents after the body are the same for a failing
exit status as for a successful one and contain none of the copied manifest
names — and the packaging error is raised, after that cleanup, exactly when
the exit status is non-zero. -/
theorem xbox_package_cleanup_before_raise (dir manifests : List String) (exitCode : Nat)
    (hnd : dir.Nodup) :
    (∀ m ∈ manifests, m ∉ (xboxPackageConfigStep dir manifests exitCode).1)
    ∧ (xboxPackageConfigStep dir manifests exitCode).1
        = (xboxPackageConfigStep dir manifests 0).1
    ∧ ((xboxPackageConfigStep dir manifests exitCode).2
        = Except.error PkgError.processFailure ↔ exitCode ≠ 0) := by
  refine ⟨?_, rfl, ?_⟩
  · intro m hm
    exact not_mem_removeManifests m manifests (copyManifests dir manifests)
      (nodup_copyManifests manifests dir hnd) hm
  · by_cases he : exitCode = 0 <;> simp [xboxPackageConfigStep, he]

/-- Witness for C3: with a failing tool (exit status 1), the copied manifest
is absent from the final source directory and the failure is reported. -/
theorem xbox_package_cleanup_before_raise_witness :
    "AppxManifest.xml" ∉ (xboxPackageConfigStep ["era.xvd", "game.pak"]
        ["AppxManifest.xml", "appdata.bin"] 1).1
    ∧ (xboxPackageConfigStep ["era.xvd", "game.pak"] ["AppxManifest.xml", "appdata.bin"] 1).2
        = Except.error PkgError.processFailure := by
  have h := xbox_package_cleanup_before_raise ["era.xvd", "game.pak"]
    ["AppxManifest.xml", "appdata.bin"] 1 (by decide)
  exact ⟨h.1 "AppxManifest.xml" (by decide), h.2.2.mpr (by decide)⟩

lemma ps4PackageLoop_all_ok (game titleId : String) (exitFor : String → Nat) :
    ∀ cfgs : List String, (∀ cfg ∈ cfgs, exitFor (ps4ArtifactName game cfg titleId) = 0) →
      ps4PackageLoop game titleId exitFor cfgs
        = Except.ok (cfgs.map (fun cfg => ps4ArtifactName game cfg titleId)) := by
  intro cfgs
  induction cfgs with
  | nil => intro _; rfl
  | cons cfg rest ih =>
    intro h
    simp only [ps4PackageLoop, if_pos (h cfg (List.mem_cons_self cfg rest))]
    rw [ih (fun x hx => h x (List.mem_cons_of_mem cfg hx))]
    rfl

lemma xboxPackageLoop_all_ok (manifestsFor : String → List String) (exitFor : String → Nat) :
    ∀ cfgs : List String, (∀ cfg ∈ cfgs, exitFor cfg = 0) →
      ∀ dir, (xboxPackageLoop manifestsFor exitFor dir cfgs).2 = Except.ok cfgs := by
  intro cfgs
  induction cfgs with
  | nil => intro _ dir; rfl
  | cons cfg rest ih =>
    intro h dir
    have hok : exitFor cfg = 0 := h cfg (List.mem_cons_self cfg rest)
    simp only [xboxPackageLoop, xboxPackageConfigStep, hok, if_pos]
    rw [ih (fun x hx => h x (List.mem_cons_of_mem cfg hx))]
    rfl

/-- C6: the console packaging strategies iterate over exactly the atomic
configuration names obtained by splitting the configuration string on `+`,
once each, in order: the second-console loop produces one
`<game>-<configuration>-<titleid>.pkg` artifact per atomic name (so
configuration `Shipping` yields the single artifact
`<game>-Shipping-<titleid>.pkg`), a non-zero exit status of the packaging
tool raises the process failure instead, and the first-console loop processes
the same atomic names in the same order. -/
theorem console_packaging_per_atomic_config (game titleId configuration : String)
    (exitFor : String → Nat) :
    ((∀ cfg ∈ atomicConfigs configuration, exitFor (ps4ArtifactName game cfg titleId) = 0) →
      package_ps4 game configuration titleId exitFor
        = Except.ok ((atomicConfigs configuration).map
            (fun cfg => ps4ArtifactName game cfg titleId)))
    ∧ (exitFor (ps4ArtifactName game "Shipping" titleId) = 0 →
        package_ps4 game "Shipping" titleId exitFor
          = Except.ok [ps4ArtifactName game "Shipping" titleId])
    ∧ (∀ cfg rest, atomicConfigs configuration = cfg :: rest →
        exitFor (ps4ArtifactName game cfg titleId) ≠ 0 →
        package_ps4 game configuration titleId exitFor
          = Except.error PkgError.processFailure)
    ∧ (∀ (manifestsFor : String → List String) (exitXb : String → Nat) (dir : List String),
        (∀ cfg ∈ atomicConfigs configuration, exitXb cfg = 0) →
        (xboxPackageLoop manifestsFor exitXb dir (atomicConfigs configuration)).2
          = Except.ok (atomicConfigs configuration)) := by
  refine ⟨?_, ?_, ?_, ?_⟩
  · intro h
    exact ps4PackageLoop_all_ok game titleId exitFor _ h
  · intro h
    have hsplit : atomicConfigs "Shipping" = ["Shipping"] := by decide
    show ps4PackageLoop game titleId exitFor (atomicConfigs "Shipping") = _
    rw [hsplit, ps4PackageLoop_all_ok game titleId exitFor ["Shipping"] ?_]
    · rfl
    · intro x hx
      rw [List.mem_singleton] at hx
      subst hx
      exact h
  · intro cfg rest heq hne
    show ps4PackageLoop game titleId exitFor (atomicConfigs configuration) = _
    rw [heq]
    simp only [ps4PackageLoop, if_neg hne]
  · intro mf exitXb dir h
    exact xboxPackageLoop_all_ok mf exitXb _ h dir

/-- Witness for C6: configuration `Shipping`, an always-succeeding tool, and
concrete identifiers produce exactly the one expected artifact. -/
theorem console_packaging_per_atomic_config_witness :
    package_ps4 "Game" "Shipping" "CUSA00001" (fun _ => 0)
      = Except.ok ["Game-Shipping-CUSA00001.pkg"] :=
  ((console_packaging_per_atomic_config "Game" "CUSA00001" "Shipping" (fun _ => 0)).2.1
    rfl).trans (congrArg Except.ok (by decide))

lemma preparePackageDirectory_eq (dest : Option (List String)) :
    preparePackageDirectory dest = Except.ok (some []) := by
  cases dest <;> rfl

/-- C7: at the start of every package-step invocation the destination
directory is removed if present and created fresh, so preparation succeeds
from any prior state — in particular from the state a previous run left
behind — and the resulting directory is empty: it contains no file of any
earlier run. -/
theorem package_destination_fresh (dest : Option (List String)) (stale : List String) :
    preparePackageDirectory dest = Except.ok (some [])
    ∧ preparePackageDirectory (some stale) = Except.ok (some [])
    ∧ (∀ f ∈ stale, ∀ fresh,
        preparePackageDirectory (some stale) = Except.ok (some fresh) → f ∉ fresh) := by
  refine ⟨preparePackageDirectory_eq dest, preparePackageDirectory_eq (some stale), ?_⟩
  intro f _ fresh heq
  rw [preparePackageDirectory_eq] at heq
  injection heq with h1
  injection h1 with h2
  rw [← h2]
  simp

/-- Witness for C7: re-preparing a destination that already holds an artifact
succeeds and leaves the directory empty. -/
theorem package_destination_fresh_witness :
    preparePackageDirectory (some ["old.pkg"]) = Except.ok (some [])
    ∧ "old.pkg" ∉ ([] : List String) := by
  have h := package_destination_fresh (some ["old.pkg"]) ["old.pkg"]
  exact ⟨h.1, h.2.2 "old.pkg" (by decide) [] h.2.1⟩

/-- C8: platform dispatch is by exact identifier, and any platform outside
`Linux`, `Mac`, `Win32`, `Win64`, `XboxOne`, `PS4` selects no packaging
strategy: the package step prepares the destination, performs no packaging
action whatever the strategies would do, and returns successfully. -/
theorem package_unknown_platform_noop (platform : String) (dest : Option (List String))
    (strategy : PlatformFamily → Except PkgError (List String))
    (h : platform ∉ ["Linux", "Mac", "Win32", "Win64", "XboxOne", "PS4"]) :
    dispatchPlatform platform = none
    ∧ package_for_platform platform dest strategy = Except.ok (some [], []) := by
  simp only [List.mem_cons, List.not_mem_nil, or_false, not_or] at h
  obtain ⟨h1, h2, h3, h4, h5, h6⟩ := h
  have hd : dispatchPlatform platform = none := by
    simp only [dispatchPlatform]
    rw [if_neg (by tauto), if_neg h5, if_neg h6]
  refine ⟨hd, ?_⟩
  simp only [package_for_platform, preparePackageDirectory_eq, hd]

/-- Witness for C8: the unrecognized platform `Switch` dispatches to no
strategy and the package step succeeds even with an always-failing
strategy. -/
theorem package_unknown_platform_noop_witness :
    dispatchPlatform "Switch" = none
    ∧ package_for_platform "Switch" (some ["stale.pkg"])
        (fun _ => Except.error PkgError.processFailure) = Except.ok (some [], []) :=
  package_unknown_platform_noop "Switch" (some ["stale.pkg"])
    (fun _ => Except.error PkgError.processFailure) (by decide)

/-- C9 counterexample: each placeholder chunk file is written with the
one-character string `'\0'`, so both are one byte long — not zero bytes as
the claim states. -/
theorem chunk_files_not_zero_byte_counterexample :
    (stageXboxChunkWrites "Stage").map (fun w => w.2.length) = [1, 1]
    ∧ (1 : Nat) ≠ 0 := ⟨rfl, by decide⟩

/-- C9 (amended): after the manifest fix-ups the stage step creates exactly
the two placeholder chunk files `LaunchChunk.bin` and `AlignmentChunk.bin` in
the stage directory, in that order, and each is written with a single NUL
character — one byte long, not zero bytes. -/
theorem chunk_files_single_nul (stageDirectory : String) :
    (stageXboxChunkWrites stageDirectory).map Prod.fst
        = [stageDirectory ++ "/LaunchChunk.bin", stageDirectory ++ "/AlignmentChunk.bin"]
    ∧ (∀ w ∈ stageXboxChunkWrites stageDirectory,
        w.2.length = 1 ∧ w.2.data = [Char.ofNat 0]) := by
  refine ⟨rfl, ?_⟩
  intro w hw
  rw [stageXboxChunkWrites, List.mem_cons, List.mem_singleton] at hw
  rcases hw with h | h <;> subst h <;> exact ⟨rfl, rfl⟩

/-- Witness for C9 (amended): concrete stage directory `S`. -/
theorem chunk_files_single_nul_witness :
    (stageXboxChunkWrites "S").map Prod.fst = ["S/LaunchChunk.bin", "S/AlignmentChunk.bin"]
    ∧ chunkFileContent.length = 1 := by
  have h := chunk_files_single_nul "S"
  exact ⟨h.1.trans (by decide),
    (h.2 ("S" ++ "/LaunchChunk.bin", chunkFileContent) (by decide)).1⟩

/-! ## The domain of the transform (`str.format` with only `configuration` bound) -/

/-- The pieces of a well-formed single-key format template: a plain character
(no brace), the escapes `{{` and `}}`, and the replacement field
`{configuration}` itself. -/
inductive TemplatePiece where
  | plain (c : Char)
  | escOpen
  | escClose
  | field
deriving DecidableEq

/-- The source text a piece stands for. -/
def renderPiece : TemplatePiece → List Char
  | TemplatePiece.plain c => [c]
  | TemplatePiece.escOpen => ['{', '{']
  | TemplatePiece.escClose => ['}', '}']
  | TemplatePiece.field => "{configuration}".data

/-- The source text a piece list stands for. -/
def renderTemplate (ps : List TemplatePiece) : List Char :=
  (ps.map renderPiece).join

/-- What a piece formats to: escapes unescape, the field becomes the bound
value. -/
def substPiece (v : List Char) : TemplatePiece → List Char
  | TemplatePiece.plain c => [c]
  | TemplatePiece.escOpen => ['{']
  | TemplatePiece.escClose => ['}']
  | TemplatePiece.field => v

/-- What a piece list formats to. -/
def substTemplate (v : List Char) (ps : List TemplatePiece) : List Char :=
  (ps.map (substPiece v)).join

/-- A plain piece must not itself be a brace (braces only occur through the
escape and field pieces). -/
def pieceClean : TemplatePiece → Bool
  | TemplatePiece.plain c => decide (c ≠ '{' ∧ c ≠ '}')
  | _ => true

/-- All pieces of the template are clean. -/
def piecesClean (ps : List TemplatePiece) : Prop := ∀ p ∈ ps, pieceClean p = true

instance (ps : List TemplatePiece) : Decidable (piecesClean ps) :=
  inferInstanceAs (Decidable (∀ p ∈ ps, pieceClean p = true))

/-- Scanner modes of the full-grammar format embedding: ordinary text; a
field name being collected (reversed) in `acc`; or a field suffix being
collected (reversed) in `acc` after the suffix's opening character, with the
current brace-nesting depth inside the suffix. -/
inductive FmtMode where
  | normal
  | fieldName (acc : List Char)
  | fieldSuffix (name : List Char) (acc : List Char) (depth : Nat)

/-- `file_content.format(configuration = ...)` (package.py line 202) with the
full replacement-field grammar of `str.format`.  Text and the `{{`/`}}`
escapes behave as in `pyFmtGo`.  A field is `{name}` or `{name<suffix>}`: the
name runs to the first `}`, `!`, `:`, `.` or `[`; a `{` inside the name
raises, as does a field left open at the end of the text.  A bare `{name}`
resolves concretely — `configuration` is the only bound key, any other name
raises (`KeyError`/`IndexError`).  A field with a suffix (conversion such as
`!s`/`!r`, a format spec after `:`, attribute or index access) collects the
suffix up to the brace-matching `}` (a nested `{...}` inside a format spec is
part of the suffix) and resolves through `fieldOracle name suffix`, which
abstracts the Python runtime's lookup-convert-format behaviour for that
field; `none` embeds a raised error. -/
def pyFmtFull (value : List Char) (fieldOracle : List Char → List Char → Option (List Char)) :
    FmtMode → List Char → Option (List Char)
  | FmtMode.normal, [] => some []
  | FmtMode.normal, c :: rest =>
    if c = '{' then
      match rest with
      | c2 :: rest2 =>
        if c2 = '{' then
          Option.map (fun r => '{' :: r) (pyFmtFull value fieldOracle FmtMode.normal rest2)
        else pyFmtFull value fieldOracle (FmtMode.fieldName []) (c2 :: rest2)
      | [] => none
    else if c = '}' then
      match rest with
      | c2 :: rest2 =>
        if c2 = '}' then
          Option.map (fun r => '}' :: r) (pyFmtFull value fieldOracle FmtMode.normal rest2)
        else none
      | [] => none
    else Option.map (fun r => c :: r) (pyFmtFull value fieldOracle FmtMode.normal rest)
  | FmtMode.fieldName _, [] => none
  | FmtMode.fieldName acc, c :: rest =>
    if c = '}' then
      if acc.reverse = "configuration".data then
        Option.map (fun r => value ++ r) (pyFmtFull value fieldOracle FmtMode.normal rest)
      else none
    else if c = '!' ∨ c = ':' ∨ c = '.' ∨ c = '[' then
      pyFmtFull value fieldOracle (FmtMode.fieldSuffix acc.reverse [c] 0) rest
    else if c = '{' then none
    else pyFmtFull value fieldOracle (FmtMode.fieldName (c :: acc)) rest
  | FmtMode.fieldSuffix _ _ _, [] => none
  | FmtMode.fieldSuffix name acc depth, c :: rest =>
    if c = '}' then
      if depth = 0 then
        match fieldOracle name acc.reverse with
        | none => none
        | some out => Option.map (fun r => out ++ r) (pyFmtFull value fieldOracle FmtMode.normal rest)
      else pyFmtFull value fieldOracle (FmtMode.fieldSuffix name (c :: acc) (depth - 1)) rest
    else if c = '{' then
      pyFmtFull value fieldOracle (FmtMode.fieldSuffix name (c :: acc) (depth + 1)) rest
    else pyFmtFull value fieldOracle (FmtMode.fieldSuffix name (c :: acc) depth) rest

/-- String-level full-grammar `content.format(configuration = value)`. -/
def pyFormatFull (fieldOracle : List Char → List Char → Option (List Char)) (value s : String) :
    Option String :=
  Option.map String.mk (pyFmtFull value.data fieldOracle FmtMode.normal s.data)

/-- `Package._stage_file` with `apply_transform` (package.py lines 199-206)
over the full-grammar format embedding: the result is the content written to
the destination, or `none` when staging raises and writes nothing.  The
`fieldOracle` abstracts the Python runtime of suffixed fields, exactly as in
`pyFmtFull`. -/
def stage_file_format (fieldOracle : List Char → List Char → Option (List Char))
    (source : String) (apply_transform : Bool) (platform configuration : String) :
    Option String :=
  if apply_transform then
    Option.map (fun c => if configuration = "Shipping" then stripDebugSections c else c)
      (pyFormatFull fieldOracle (effectiveConfiguration platform configuration) source)
  else some source

/-- The one point of the field runtime consulted when formatting
`{configuration!s}`: Python's `!s` conversion applies `str` to the bound
string value, returning it unchanged
(`"{configuration!s}".format(configuration='Debug') == 'Debug'`).  No other
(name, suffix) point is consulted by that computation; they are mapped to
`none`. -/
def convSOracle : List Char → List Char → Option (List Char) :=
  fun name suffix =>
    if name = "configuration".data ∧ suffix = ['!', 's'] then some "Debug".data else none

lemma pyFmtFull_plain_cons (v : List Char) (o : List Char → List Char → Option (List Char))
    (c : Char) (t : List Char) (hc1 : ¬c = '{') (hc2 : ¬c = '}') :
    pyFmtFull v o FmtMode.normal (c :: t)
      = Option.map (fun r => c :: r) (pyFmtFull v o FmtMode.normal t) := by
  cases t with
  | nil => rw [pyFmtFull.eq_3, if_neg hc1, if_neg hc2]
  | cons c2 t2 => rw [pyFmtFull.eq_2, if_neg hc1, if_neg hc2]

lemma pyFmtFull_escOpen (v : List Char) (o : List Char → List Char → Option (List Char))
    (t : List Char) :
    pyFmtFull v o FmtMode.normal ('{' :: '{' :: t)
      = Option.map (fun r => '{' :: r) (pyFmtFull v o FmtMode.normal t) := by
  rw [pyFmtFull.eq_2, if_pos rfl, if_pos rfl]

lemma pyFmtFull_escClose (v : List Char) (o : List Char → List Char → Option (List Char))
    (t : List Char) :
    pyFmtFull v o FmtMode.normal ('}' :: '}' :: t)
      = Option.map (fun r => '}' :: r) (pyFmtFull v o FmtMode.normal t) := by
  rw [pyFmtFull.eq_2, if_neg (by decide), if_pos rfl, if_pos rfl]

lemma pyFmtFull_open_cons (v : List Char) (o : List Char → List Char → Option (List Char))
    (c2 : Char) (rest2 : List Char) (h : ¬c2 = '{') :
    pyFmtFull v o FmtMode.normal ('{' :: c2 :: rest2)
      = pyFmtFull v o (FmtMode.fieldName []) (c2 :: rest2) := by
  rw [pyFmtFull.eq_2, if_pos rfl, if_neg h]

/-- The characters that may appear in a field name without ending it or
raising. -/
def fieldNameChar (c : Char) : Prop :=
  c ≠ '}' ∧ c ≠ '!' ∧ c ≠ ':' ∧ c ≠ '.' ∧ c ≠ '[' ∧ c ≠ '{'

instance (c : Char) : Decidable (fieldNameChar c) :=
  inferInstanceAs (Decidable (_ ∧ _ ∧ _ ∧ _ ∧ _ ∧ _))

lemma pyFmtFull_name_scan (v : List Char) (o : List Char → List Char → Option (List Char)) :
    ∀ (name acc rest : List Char), (∀ c ∈ name, fieldNameChar c) →
      pyFmtFull v o (FmtMode.fieldName acc) (name ++ '}' :: rest)
        = if acc.reverse ++ name = "configuration".data
          then Option.map (fun r => v ++ r) (pyFmtFull v o FmtMode.normal rest)
          else none := by
  intro name
  induction name with
  | nil =>
    intro acc rest _
    rw [List.nil_append, List.append_nil, pyFmtFull.eq_5, if_pos rfl]
  | cons c name' ih =>
    intro acc rest h
    obtain ⟨h1, h2, h3, h4, h5, h6⟩ := h c (List.mem_cons_self c name')
    rw [List.cons_append, pyFmtFull.eq_5, if_neg h1,
      if_neg (by rintro (hh | hh | hh | hh) <;> [exact h2 hh; exact h3 hh; exact h4 hh; exact h5 hh]),
      if_neg h6]
    rw [ih (c :: acc) rest (fun x hx => h x (List.mem_cons_of_mem c hx))]
    rw [List.reverse_cons, List.append_assoc, List.singleton_append]

lemma pyFmtFull_name_to_suffix (v : List Char) (o : List Char → List Char → Option (List Char)) :
    ∀ (name acc rest : List Char) (t : Char), (∀ c ∈ name, fieldNameChar c) →
      (t = '!' ∨ t = ':' ∨ t = '.' ∨ t = '[') →
      pyFmtFull v o (FmtMode.fieldName acc) (name ++ t :: rest)
        = pyFmtFull v o (FmtMode.fieldSuffix (acc.reverse ++ name) [t] 0) rest := by
  intro name
  induction name with
  | nil =>
    intro acc rest t _ ht
    have htne : ¬t = '}' := by rcases ht with h | h | h | h <;> subst h <;> decide
    rw [List.nil_append, List.append_nil, pyFmtFull.eq_5, if_neg htne, if_pos ht]
  | cons c name' ih =>
    intro acc rest t h ht
    obtain ⟨h1, h2, h3, h4, h5, h6⟩ := h c (List.mem_cons_self c name')
    rw [List.cons_append, pyFmtFull.eq_5, if_neg h1,
      if_neg (by rintro (hh | hh | hh | hh) <;> [exact h2 hh; exact h3 hh; exact h4 hh; exact h5 hh]),
      if_neg h6]
    rw [ih (c :: acc) rest t (fun x hx => h x (List.mem_cons_of_mem c hx)) ht]
    rw [List.reverse_cons, List.append_assoc, List.singleton_append]

lemma pyFmtFull_suffix_scan (v : List Char) (o : List Char → List Char → Option (List Char)) :
    ∀ (suf name acc rest : List Char), (∀ c ∈ suf, c ≠ '{' ∧ c ≠ '}') →
      pyFmtFull v o (FmtMode.fieldSuffix name acc 0) (suf ++ '}' :: rest)
        = match o name (acc.reverse ++ suf) with
          | none => none
          | some out => Option.map (fun r => out ++ r) (pyFmtFull v o FmtMode.normal rest) := by
  intro suf
  induction suf with
  | nil =>
    intro name acc rest _
    rw [List.nil_append, List.append_nil, pyFmtFull.eq_7, if_pos rfl, if_pos rfl]
  | cons c suf' ih =>
    intro name acc rest h
    obtain ⟨hc1, hc2⟩ := h c (List.mem_cons_self c suf')
    rw [List.cons_append, pyFmtFull.eq_7, if_neg hc2, if_neg hc1]
    rw [ih name (c :: acc) rest (fun x hx => h x (List.mem_cons_of_mem c hx))]
    rw [List.reverse_cons, List.append_assoc, List.singleton_append]

lemma pyFmtFull_prefix_walk (v : List Char) (o : List Char → List Char → Option (List Char)) :
    ∀ (a t : List Char), (∀ c ∈ a, c ≠ '{' ∧ c ≠ '}') →
      pyFmtFull v o FmtMode.normal (a ++ t)
        = Option.map (fun r => a ++ r) (pyFmtFull v o FmtMode.normal t) := by
  intro a
  induction a with
  | nil =>
    intro t _
    rw [List.nil_append]
    cases pyFmtFull v o FmtMode.normal t <;> rfl
  | cons c a' ih =>
    intro t h
    obtain ⟨hc1, hc2⟩ := h c (List.mem_cons_self c a')
    rw [List.cons_append, pyFmtFull_plain_cons v o c _ hc1 hc2,
      ih t (fun x hx => h x (List.mem_cons_of_mem c hx))]
    cases pyFmtFull v o FmtMode.normal t <;> rfl

lemma pyFmtFull_render (v : List Char) (o : List Char → List Char → Option (List Char)) :
    ∀ ps : List TemplatePiece, piecesClean ps →
      pyFmtFull v o FmtMode.normal (renderTemplate ps) = some (substTemplate v ps) := by
  intro ps
  induction ps with
  | nil => intro _; rfl
  | cons p rest ih =>
    intro h
    have hrest := ih (fun x hx => h x (List.mem_cons_of_mem p hx))
    cases p with
    | plain c =>
      have hc := h (TemplatePiece.plain c) (List.mem_cons_self _ _)
      rw [show pieceClean (TemplatePiece.plain c) = decide (c ≠ '{' ∧ c ≠ '}') from rfl] at hc
      obtain ⟨hc1, hc2⟩ := of_decide_eq_true hc
      show pyFmtFull v o FmtMode.normal (c :: renderTemplate rest) = _
      rw [pyFmtFull_plain_cons v o c _ hc1 hc2, hrest]
      rfl
    | escOpen =>
      show pyFmtFull v o FmtMode.normal ('{' :: '{' :: renderTemplate rest) = _
      rw [pyFmtFull_escOpen, hrest]
      rfl
    | escClose =>
      show pyFmtFull v o FmtMode.normal ('}' :: '}' :: renderTemplate rest) = _
      rw [pyFmtFull_escClose, hrest]
      rfl
    | field =>
      show pyFmtFull v o FmtMode.normal
        ('{' :: ("configuration".data ++ '}' :: renderTemplate rest)) = _
      rw [show '{' :: ("configuration".data ++ '}' :: renderTemplate rest)
          = '{' :: 'c' :: ("onfiguration".data ++ '}' :: renderTemplate rest) from rfl]
      rw [pyFmtFull_open_cons v o 'c' _ (by decide)]
      rw [show 'c' :: ("onfiguration".data ++ '}' :: renderTemplate rest)
          = "configuration".data ++ '}' :: renderTemplate rest from rfl]
      rw [pyFmtFull_name_scan v o "configuration".data [] (renderTemplate rest) (by decide)]
      rw [if_pos (by simp), hrest]
      rfl

lemma stage_file_format_transform
    (o : List Char → List Char → Option (List Char)) (source platform configuration : String) :
    stage_file_format o source true platform configuration
      = Option.map (fun c => if configuration = "Shipping" then stripDebugSections c else c)
          (Option.map String.mk
            (pyFmtFull (effectiveConfiguration platform configuration).data o
              FmtMode.normal source.data)) := rfl

lemma renderTemplate_cons (p : TemplatePiece) (ps : List TemplatePiece) :
    renderTemplate (p :: ps) = renderPiece p ++ renderTemplate ps := by
  simp [renderTemplate]

/-- C10 counterexample: the claim requires staging to fail on every source
text whose brace-delimited fields are not exactly `{configuration}`; the
program instead succeeds on `{configuration!s}` — Python's `!s` conversion on
the bound string returns it unchanged — although `{configuration!s}` is not
renderable from exact-`{configuration}` template pieces. -/
theorem stage_file_exact_field_counterexample :
    stage_file_format convSOracle "{configuration!s}" true "Win64" "Debug" = some "Debug"
    ∧ ¬∃ ps : List TemplatePiece, piecesClean ps
        ∧ renderTemplate ps = "{configuration!s}".data := by
  constructor
  · decide
  · rintro ⟨ps, hclean, hrender⟩
    have htarget : "{configuration!s}".data
        = '{' :: 'c' :: 'o' :: 'n' :: 'f' :: 'i' :: 'g' :: 'u' :: 'r' :: 'a' :: 't' :: 'i'
            :: 'o' :: 'n' :: '!' :: 's' :: '}' :: [] := rfl
    cases ps with
    | nil =>
      rw [htarget] at hrender
      simp [renderTemplate] at hrender
    | cons p rest =>
      rw [renderTemplate_cons] at hrender
      cases p with
      | plain c =>
        rw [show renderPiece (TemplatePiece.plain c) = [c] from rfl,
          List.singleton_append, htarget] at hrender
        injection hrender with hc _
        have hcl := hclean (TemplatePiece.plain c) (List.mem_cons_self _ _)
        rw [hc] at hcl
        exact absurd hcl (by decide)
      | escOpen =>
        rw [show renderPiece TemplatePiece.escOpen = ['{', '{'] from rfl,
          show (['{', '{'] : List Char) ++ renderTemplate rest
            = '{' :: '{' :: renderTemplate rest from rfl, htarget] at hrender
        injection hrender with _ hrender2
        injection hrender2 with hbad _
        exact absurd hbad (by decide)
      | escClose =>
        rw [show renderPiece TemplatePiece.escClose = ['}', '}'] from rfl,
          show (['}', '}'] : List Char) ++ renderTemplate rest
            = '}' :: '}' :: renderTemplate rest from rfl, htarget] at hrender
        injection hrender with hbad _
        exact absurd hbad (by decide)
      | field =>
        rw [show renderPiece TemplatePiece.field = "{configuration}".data from rfl] at hrender
        have hlen : ("{configuration}".data).length = 15 := rfl
        have h15 : List.take 15 ("{configuration}".data ++ renderTemplate rest)
            = List.take 15 "{configuration!s}".data :=
          congrArg (fun l => List.take 15 l) hrender
        rw [← hlen, List.take_left] at h15
        exact absurd h15 (by decide)

/-- C10 (amended): transform staging passes the entire source text through
string formatting with only the `configuration` key bound.  Staging therefore
raises — and writes no destination file — for every source text containing a
replacement field whose field name is not `configuration`, or an unmatched
`{`, or a lone `}`; and every source made only of non-brace text, `{{`/`}}`
escapes and exact `{configuration}` fields stages successfully.  Success does
not require every field to be exactly `{configuration}`: a `configuration`
field carrying a conversion or format-spec suffix resolves through the field
runtime and can succeed, as `{configuration!s}` does. -/
theorem stage_file_format_domain (platform configuration : String)
    (fieldOracle : List Char → List Char → Option (List Char)) :
    (∀ source : String, ∀ ps : List TemplatePiece, piecesClean ps →
        renderTemplate ps = source.data →
        stage_file_format fieldOracle source true platform configuration ≠ none)
    ∧ (∀ (a : String) (name b : List Char),
        (∀ c ∈ a.data, c ≠ '{' ∧ c ≠ '}') →
        (∀ c ∈ name, fieldNameChar c) →
        name ≠ "configuration".data →
        ∀ source : String, source.data = a.data ++ '{' :: (name ++ '}' :: b) →
        stage_file_format fieldOracle source true platform configuration = none)
    ∧ (∀ a : String, (∀ c ∈ a.data, c ≠ '{' ∧ c ≠ '}') →
        ∀ source : String, source.data = a.data ++ ['{'] →
        stage_file_format fieldOracle source true platform configuration = none)
    ∧ (∀ (a : String) (b : List Char), (∀ c ∈ a.data, c ≠ '{' ∧ c ≠ '}') →
        b.head? ≠ some '}' →
        ∀ source : String, source.data = a.data ++ '}' :: b →
        stage_file_format fieldOracle source true platform configuration = none)
    ∧ (fieldOracle "configuration".data ['!', 's']
          = some (effectiveConfiguration platform configuration).data →
        stage_file_format fieldOracle "{configuration!s}" true platform configuration
          ≠ none) := by
  refine ⟨?_, ?_, ?_, ?_, ?_⟩
  · intro source ps hps hrender hnone
    have hrun := pyFmtFull_render (effectiveConfiguration platform configuration).data
      fieldOracle ps hps
    rw [hrender] at hrun
    rw [stage_file_format_transform, Option.map_eq_none', Option.map_eq_none', hrun] at hnone
    exact Option.noConfusion hnone
  · intro a name b ha hname hnc source hsrc
    rw [stage_file_format_transform, hsrc, pyFmtFull_prefix_walk _ _ a.data _ ha]
    have hopen : pyFmtFull (effectiveConfiguration platform configuration).data fieldOracle
        FmtMode.normal ('{' :: (name ++ '}' :: b))
        = pyFmtFull (effectiveConfiguration platform configuration).data fieldOracle
            (FmtMode.fieldName []) (name ++ '}' :: b) := by
      cases name with
      | nil =>
        rw [List.nil_append]
        exact pyFmtFull_open_cons _ _ '}' b (by decide)
      | cons n0 name' =>
        rw [List.cons_append]
        exact pyFmtFull_open_cons _ _ n0 _ (hname n0 (List.mem_cons_self _ _)).2.2.2.2.2
    rw [hopen, pyFmtFull_name_scan _ _ name [] b hname,
      show (([] : List Char).reverse ++ name) = name from by simp, if_neg hnc]
    rfl
  · intro a ha source hsrc
    rw [stage_file_format_transform, hsrc, pyFmtFull_prefix_walk _ _ a.data _ ha]
    rw [show pyFmtFull (effectiveConfiguration platform configuration).data fieldOracle
        FmtMode.normal ['{'] = none from by rw [pyFmtFull.eq_3, if_pos rfl]]
    rfl
  · intro a b ha hb source hsrc
    rw [stage_file_format_transform, hsrc, pyFmtFull_prefix_walk _ _ a.data _ ha]
    have hinner : pyFmtFull (effectiveConfiguration platform configuration).data fieldOracle
        FmtMode.normal ('}' :: b) = none := by
      cases b with
      | nil => rw [pyFmtFull.eq_3, if_neg (by decide), if_pos rfl]
      | cons c2 b2 =>
        have hc2 : ¬c2 = '}' := by
          intro hq
          exact hb (by rw [List.head?_cons, hq])
        rw [pyFmtFull.eq_2, if_neg (by decide), if_pos rfl, if_neg hc2]
    rw [hinner]
    rfl
  · intro horacle
    rw [stage_file_format_transform]
    have hin : pyFmtFull (effectiveConfiguration platform configuration).data fieldOracle
        FmtMode.normal "{configuration!s}".data
        = some (effectiveConfiguration platform configuration).data := by
      rw [show ("{configuration!s}".data : List Char)
          = '{' :: 'c' :: ("onfiguration".data ++ '!' :: 's' :: '}' :: []) from rfl]
      rw [pyFmtFull_open_cons _ _ 'c' _ (by decide)]
      rw [show 'c' :: ("onfiguration".data ++ '!' :: 's' :: '}' :: [])
          = "configuration".data ++ '!' :: 's' :: '}' :: [] from rfl]
      rw [pyFmtFull_name_to_suffix _ _ "configuration".data [] ('s' :: '}' :: []) '!'
        (by decide) (Or.inl rfl)]
      rw [show (([] : List Char).reverse ++ "configuration".data)
          = "configuration".data from by simp]
      rw [show ('s' :: '}' :: ([] : List Char)) = ['s'] ++ '}' :: [] from rfl]
      rw [pyFmtFull_suffix_scan _ _ ['s'] "configuration".data ['!'] [] (by decide)]
      rw [show ((['!'] : List Char).reverse ++ ['s']) = ['!', 's'] from rfl]
      rw [horacle]
      show some ((effectiveConfiguration platform configuration).data ++ []) = _
      rw [List.append_nil]
    rw [hin]
    simp

/-- Witness for C10 (amended): with the `!s`-point field oracle,
`a{configuration}b` stages successfully, `a{other}b`, a dangling `x{` and a
lone `x}y` all fail, and the suffixed `{configuration!s}` succeeds. -/
theorem stage_file_format_domain_witness :
    stage_file_format convSOracle "a{configuration}b" true "Win64" "Debug" ≠ none
    ∧ stage_file_format convSOracle "a{other}b" true "Win64" "Debug" = none
    ∧ stage_file_format convSOracle "x\x7b" true "Win64" "Debug" = none
    ∧ stage_file_format convSOracle "x\x7dy" true "Win64" "Debug" = none
    ∧ stage_file_format convSOracle "{configuration!s}" true "Win64" "Debug" ≠ none := by
  have h := stage_file_format_domain "Win64" "Debug" convSOracle
  refine ⟨?_, ?_, ?_, ?_, ?_⟩
  · exact h.1 "a{configuration}b"
      [TemplatePiece.plain 'a', TemplatePiece.field, TemplatePiece.plain 'b']
      (by decide) (by decide)
  · exact h.2.1 "a" ['o', 't', 'h', 'e', 'r'] ['b'] (by decide) (by decide) (by decide)
      "a{other}b" (by decide)
  · exact h.2.2.1 "x" (by decide) "x\x7b" (by decide)
  · exact h.2.2.2.1 "x" ['y'] (by decide) (by decide) "x\x7dy" (by decide)
  · exact h.2.2.2.2 (by decide)

end Nimp
